import Mathlib

/-!
# Verification of the Smart-Chess engine core

A shallow embedding of the Python chess engine (`pieces.py`, `utils.py`,
`checked.py`, `game_logic.py`, `board.py`, `monte_carlo_algo.py`) into Lean 4,
together with theorems settling the frozen claims about the code.

Conventions of the embedding:

* Python `board` objects (8×8 lists of lists holding piece objects or `None`)
  become `Board := List (List (Option Piece))`; square reads out of range use
  `List.getD` and return `none` (the Python code only indexes in range on the
  inputs the theorems quantify over), writes out of range leave the list
  unchanged.
* Python square strings such as `'e4'` stay strings; `position_to_indices` /
  `indices_to_position` work on the characters exactly as the source does.
* Functions that can raise a `TypeError` (the source calls `King.valid_moves`
  with three arguments where four are required) return `Except Unit _`, with
  `.error ()` standing for the raised exception.
* The mutual recursion `is_square_attacked → King.valid_moves →
  causes_self_check / can_castle → is_in_check → is_square_attacked` in
  `checked.py` / `pieces.py` is not structurally terminating (and indeed does
  not terminate on some boards), so it is embedded with an explicit fuel
  parameter (`chkStep`); `none` means the fuel ran out.
* `random.choice`, wall-clock time, thread pools, the interactive promotion
  prompt and the float-valued exploration term `sqrt(log(v+1)/(cv+1e-6))` of
  UCB1 are not embeddable; they are abstracted as explicit oracle parameters,
  and every theorem quantifies over all oracles.  Win tallies use `ℚ` instead
  of Python floats; all values actually reached are exact integers.
-/

set_option maxHeartbeats 1000000

namespace SmartChess

/-- Piece colours, `'white'` / `'black'` in the source. -/
inductive PColor where
  | white
  | black
  deriving DecidableEq, Repr

/-- The six piece classes of `pieces.py`. -/
inductive PType where
  | king
  | queen
  | rook
  | bishop
  | knight
  | pawn
  deriving DecidableEq, Repr

/-- A piece object: class tag, `color`, `position` and `has_moved` attributes.
Python `Queen`/`Bishop`/`Knight` objects have no `has_moved` attribute; the
source only touches it after a `hasattr` test, modelled by `hasMovedAttr`. -/
structure Piece where
  ptype : PType
  color : PColor
  pos : String
  hasMoved : Bool
  deriving DecidableEq, Repr

/-- `hasattr(piece, 'has_moved')`: only `King`, `Rook` and `Pawn` define it. -/
def hasMovedAttr : PType → Bool
  | .king => true
  | .rook => true
  | .pawn => true
  | _ => false

/-- The chessboard: 8×8 grid of optional pieces, row 0 = rank 1. -/
abbrev Board := List (List (Option Piece))

/-- A move as the game logic passes it around: `(start_pos, end_pos)` strings. -/
abbrev Move := String × String

/-- The opponent colour: `'black' if color == 'white' else 'white'`. -/
def opponentOf : PColor → PColor
  | .white => .black
  | .black => .white

/-- Read cell `(row, col)` of a grid (out of range reads give the default). -/
def gridGet (b : List (List α)) (r c : Nat) (d : α) : α :=
  (List.getD b r []).getD c d

/-- Write cell `(row, col)` of a grid (out of range writes do nothing). -/
def gridSet (b : List (List α)) (r c : Nat) (v : α) : List (List α) :=
  List.set b r ((List.getD b r []).set c v)

/-- Read square `(row, col)` of the board (out of range reads give `none`). -/
def getS (b : Board) (r c : Nat) : Option Piece :=
  gridGet b r c none

/-- Write square `(row, col)` of the board (out of range writes do nothing). -/
def setS (b : Board) (r c : Nat) (v : Option Piece) : Board :=
  gridSet b r c v

/-- The row-major scan order `for row in range(8): for col in range(8)`. -/
def squares : List (Nat × Nat) :=
  (List.range 8).flatMap fun r => (List.range 8).map fun c => (r, c)

/-- `utils.position_to_indices`: `'a1'` ↦ `(0, 0)`, returning `(row, col)`.
`col = ord(position[0].lower()) - ord('a')`, `row = int(position[1]) - 1`. -/
def position_to_indices (p : String) : Nat × Nat :=
  let cs := p.data
  let file := (cs.getD 0 'a').toLower
  let rank := cs.getD 1 '1'
  (rank.toNat - 49, file.toNat - 97)

/-- `utils.indices_to_position`: note the source takes the **column first**. -/
def indices_to_position (col row : Nat) : String :=
  String.mk [Char.ofNat (col + 97), Char.ofNat (row + 49)]

/-- `Piece.is_valid_position` from `pieces.py`: two characters, file in
`'abcdefgh'`, rank in `'12345678'`. -/
def is_valid_position (p : String) : Bool :=
  decide (p.data.length = 2) &&
    "abcdefgh".data.contains (p.data.getD 0 ' ') &&
    "12345678".data.contains (p.data.getD 1 ' ')

/-! ## Pure movement predicates (`Queen`, `Rook`, `Bishop`, `Knight`, `Pawn`)

These `valid_moves` methods read the board and never recurse.  The Python
`while`-loops that walk the squares strictly between origin and destination
are rendered as a bounded check over those same squares: the loops are only
entered on rank/file/diagonal-aligned pairs, where they visit exactly the
squares strictly between the two endpoints. -/

/-- All squares strictly between `(sr, sc)` and `(er, ec)` are empty, walking
by `(rowStep, colStep)` as the source loops do. -/
def slideClear (b : Board) (sr sc er ec : Nat) : Bool :=
  let colStep : Int := if sc < ec then 1 else if ec < sc then -1 else 0
  let rowStep : Int := if sr < er then 1 else if er < sr then -1 else 0
  let steps : Nat := max ((er : Int) - (sr : Int)).natAbs ((ec : Int) - (sc : Int)).natAbs
  (List.range (steps - 1)).all fun i =>
    (getS b ((sr : Int) + rowStep * ((i : Int) + 1)).toNat
            ((sc : Int) + colStep * ((i : Int) + 1)).toNat).isNone

/-- Destination empty or holding an enemy piece (the shared final test of the
sliding/knight movement rules). -/
def targetOk (p : Piece) (b : Board) (er ec : Nat) : Bool :=
  match getS b er ec with
  | none => true
  | some t => decide (t.color ≠ p.color)

/-- `Rook.valid_moves`. -/
def rookVM (p : Piece) (b : Board) (s e : String) : Bool :=
  let sr := (position_to_indices s).1
  let sc := (position_to_indices s).2
  let er := (position_to_indices e).1
  let ec := (position_to_indices e).2
  if sr = er ∨ sc = ec then
    slideClear b sr sc er ec && targetOk p b er ec
  else false

/-- `Bishop.valid_moves`. -/
def bishopVM (p : Piece) (b : Board) (s e : String) : Bool :=
  let sr := (position_to_indices s).1
  let sc := (position_to_indices s).2
  let er := (position_to_indices e).1
  let ec := (position_to_indices e).2
  if ((ec : Int) - (sc : Int)).natAbs = ((er : Int) - (sr : Int)).natAbs then
    slideClear b sr sc er ec && targetOk p b er ec
  else false

/-- `Queen.valid_moves`: rook-like branch first, else bishop-like branch. -/
def queenVM (p : Piece) (b : Board) (s e : String) : Bool :=
  let sr := (position_to_indices s).1
  let sc := (position_to_indices s).2
  let er := (position_to_indices e).1
  let ec := (position_to_indices e).2
  if sr = er ∨ sc = ec then
    slideClear b sr sc er ec && targetOk p b er ec
  else if ((ec : Int) - (sc : Int)).natAbs = ((er : Int) - (sr : Int)).natAbs then
    slideClear b sr sc er ec && targetOk p b er ec
  else false

/-- `Knight.valid_moves`. -/
def knightVM (p : Piece) (b : Board) (s e : String) : Bool :=
  let sr := (position_to_indices s).1
  let sc := (position_to_indices s).2
  let er := (position_to_indices e).1
  let ec := (position_to_indices e).2
  let cd := ((ec : Int) - (sc : Int)).natAbs
  let rd := ((er : Int) - (sr : Int)).natAbs
  if (cd = 2 ∧ rd = 1) ∨ (cd = 1 ∧ rd = 2) then targetOk p b er ec
  else false

/-- The en-passant sub-check of `Pawn.valid_moves` (the `else:` branch of the
diagonal case, inspecting `last_move`). -/
def pawnEnPassantOk (p : Piece) (b : Board) (sr ec : Nat)
    (lm : Option Move) : Bool :=
  match lm with
  | none => false
  | some (ls, le) =>
    let lsr := (position_to_indices ls).1
    let ler := (position_to_indices le).1
    let lec := (position_to_indices le).2
    match getS b ler lec with
    | none => false
    | some lp =>
      decide (lp.ptype = .pawn) && decide (lp.color ≠ p.color) &&
        decide (((ler : Int) - (lsr : Int)).natAbs = 2) &&
        decide (ler = sr) && decide (lec = ec)

/-- `Pawn.valid_moves`: forward one, forward two from an unmoved pawn, diagonal
capture, or en passant.  `direction` is `+1` for White (toward row 7). -/
def pawnVM (p : Piece) (b : Board) (s e : String) (lm : Option Move) : Bool :=
  let sr := (position_to_indices s).1
  let sc := (position_to_indices s).2
  let er := (position_to_indices e).1
  let ec := (position_to_indices e).2
  let direction : Int := if p.color = .white then 1 else -1
  let colDiff : Int := (ec : Int) - (sc : Int)
  let rowDiff : Int := (er : Int) - (sr : Int)
  if colDiff = 0 then
    if rowDiff = direction then (getS b er ec).isNone
    else if rowDiff = 2 * direction then
      if !p.hasMoved then
        (getS b ((sr : Int) + direction).toNat sc).isNone && (getS b er ec).isNone
      else false
    else false
  else if colDiff.natAbs = 1 ∧ rowDiff = direction then
    match getS b er ec with
    | some t =>
      if t.color ≠ p.color then true
      else pawnEnPassantOk p b sr ec lm
    | none => pawnEnPassantOk p b sr ec lm
  else false

/-! ## The `checked.py` / `King.valid_moves` mutual recursion

`is_square_attacked` asks every opposing piece's `valid_moves`; a King's
`valid_moves` calls `causes_self_check` (which calls `checked.is_in_check`,
which calls `is_square_attacked`) and `can_castle` (which calls
`is_square_attacked` directly).  This recursion has no termination measure in
the source, so it is embedded as a single fuel-indexed step function over a
tag type of the five mutually recursive entry points.  Every entry point
consumes one unit of fuel; `none` means the fuel ran out. -/

/-- Scan a list left to right: return `some true` at the first element whose
result is `some true` (Python's early `return True`), propagate `none`
(exhausted fuel inside a nested call), and return `some false` when the list
is exhausted. -/
def firstTrueM : List α → (α → Option Bool) → Option Bool
  | [], _ => some false
  | x :: xs, f =>
    match f x with
    | none => none
    | some true => some true
    | some false => firstTrueM xs f

/-- The king-locating double loop of `checked.is_in_check`: first king of the
given colour in row-major order, as the position string
`indices_to_position(col, row)`. -/
def findKingPos (b : Board) (c : PColor) : Option String :=
  (squares.filterMap fun rc =>
    match getS b rc.1 rc.2 with
    | some p =>
      if p.ptype = .king ∧ p.color = c then some (indices_to_position rc.2 rc.1)
      else none
    | none => none).head?

/-- The board of `King.causes_self_check`: copy the board, put the piece found
at `s` onto `e`, clear `s`. -/
def selfCheckBoard (b : Board) (s e : String) : Board :=
  let sr := (position_to_indices s).1
  let sc := (position_to_indices s).2
  let er := (position_to_indices e).1
  let ec := (position_to_indices e).2
  setS (setS b er ec (getS b sr sc)) sr sc none

/-- Tags for the five mutually recursive functions of `checked.py`/`pieces.py`:
`is_square_attacked`, `is_in_check`, `King.valid_moves`,
`King.causes_self_check`, `King.can_castle`. -/
inductive ChkCall where
  | attacked (b : Board) (pos : String) (c : PColor) (lm : Option Move)
  | inCheck (b : Board) (c : PColor) (lm : Option Move)
  | kingVM (p : Piece) (b : Board) (s e : String) (lm : Option Move)
  | selfCheck (p : Piece) (b : Board) (s e : String) (lm : Option Move)
  | castle (p : Piece) (b : Board) (s e : String) (lm : Option Move)

/-- One fuel-indexed interpreter for the whole mutual recursion.  Each branch
is a direct translation of the corresponding Python function; in particular
`can_castle`'s attack queries pass `indices_to_position(start_row, col)` with
the arguments in the source's (swapped) order. -/
def chkStep : Nat → ChkCall → Option Bool
  | 0, _ => none
  | g + 1, call =>
    match call with
    | .attacked b pos c lm =>
      firstTrueM squares fun rc =>
        match getS b rc.1 rc.2 with
        | some p =>
          if p.color = opponentOf c then
            let sp := indices_to_position rc.2 rc.1
            match p.ptype with
            | .king => chkStep g (.kingVM p b sp pos lm)
            | .pawn => some (pawnVM p b sp pos lm)
            | .queen => some (queenVM p b sp pos)
            | .rook => some (rookVM p b sp pos)
            | .bishop => some (bishopVM p b sp pos)
            | .knight => some (knightVM p b sp pos)
          else some false
        | none => some false
    | .inCheck b c lm =>
      match findKingPos b c with
      | none => some true
      | some kp => chkStep g (.attacked b kp c lm)
    | .kingVM p b s e lm =>
      let sr := (position_to_indices s).1
      let sc := (position_to_indices s).2
      let er := (position_to_indices e).1
      let ec := (position_to_indices e).2
      let colDiff : Int := (ec : Int) - (sc : Int)
      let rowDiff : Int := (er : Int) - (sr : Int)
      if max colDiff.natAbs rowDiff.natAbs = 1 then
        let ok : Bool :=
          match getS b er ec with
          | none => true
          | some t => decide (t.color ≠ p.color)
        if ok then
          match chkStep g (.selfCheck p b s e lm) with
          | none => none
          | some true => some false
          | some false => some true
        else some false
      else if rowDiff = 0 ∧ colDiff.natAbs = 2 then
        chkStep g (.castle p b s e lm)
      else some false
    | .selfCheck p b s e lm =>
      chkStep g (.inCheck (selfCheckBoard b s e) p.color lm)
    | .castle p b s e lm =>
      if p.hasMoved then some false
      else
        let sr := (position_to_indices s).1
        let sc := (position_to_indices s).2
        let er := (position_to_indices e).1
        let ec := (position_to_indices e).2
        if sr ≠ er then some false
        else
          let rookColSide : Option Nat :=
            if (ec : Int) = (sc : Int) + 2 then some 7
            else if (ec : Int) = (sc : Int) - 2 then some 0
            else none
          match rookColSide with
          | none => some false
          | some rookCol =>
            match getS b sr rookCol with
            | none => some false
            | some rk =>
              if rk.ptype = .rook ∧ rk.color = p.color ∧ rk.hasMoved = false then
                let gap : List Nat :=
                  if rookCol = 7 then List.range' (sc + 1) (6 - sc)
                  else (List.range (sc - 1)).map fun i => sc - 1 - i
                if gap.all (fun cc => (getS b sr cc).isNone) then
                  let step : Int := if rookCol = 7 then 1 else -1
                  let qcols : List Nat := [sc, ((sc : Int) + step).toNat, ec]
                  match firstTrueM qcols (fun cc =>
                      chkStep g (.attacked b (indices_to_position sr cc) p.color lm)) with
                  | none => none
                  | some true => some false
                  | some false => some true
                else some false
              else some false

/-- Spec-side definition (the refinement target of the attack-detection
claim), following the spec's words: "true if any opposing piece's
geometric-legality predicate permits moving to `square` … attack detection is
one-ply and does not recurse into check-safety".  The geometric predicate of a
King is the spec's "one-square step in any of 8 directions onto
empty-or-enemy square", with no check-safety recursion. -/
def kingGeom (p : Piece) (b : Board) (s e : String) : Bool :=
  let sr := (position_to_indices s).1
  let sc := (position_to_indices s).2
  let er := (position_to_indices e).1
  let ec := (position_to_indices e).2
  if max (((ec : Int) - (sc : Int)).natAbs) (((er : Int) - (sr : Int)).natAbs) = 1 then
    targetOk p b er ec
  else false

/-- Spec-side one-ply attack predicate: some opposing piece's geometric rule
permits a move to `pos` (see `kingGeom` for the King's geometric rule). -/
def geometricAttack (b : Board) (pos : String) (c : PColor) (lm : Option Move) :
    Bool :=
  squares.any fun rc =>
    match getS b rc.1 rc.2 with
    | some p =>
      if p.color = opponentOf c then
        let sp := indices_to_position rc.2 rc.1
        match p.ptype with
        | .king => kingGeom p b sp pos
        | .pawn => pawnVM p b sp pos lm
        | .queen => queenVM p b sp pos
        | .rook => rookVM p b sp pos
        | .bishop => bishopVM p b sp pos
        | .knight => knightVM p b sp pos
      else false
    | none => false

/-- `checked.is_square_attacked`, fuelled. -/
def is_square_attacked (b : Board) (pos : String) (c : PColor) (lm : Option Move)
    (fuel : Nat) : Option Bool :=
  chkStep fuel (.attacked b pos c lm)

/-- `checked.is_in_check`, fuelled. -/
def is_in_check_chk (b : Board) (c : PColor) (lm : Option Move) (fuel : Nat) :
    Option Bool :=
  chkStep fuel (.inCheck b c lm)

/-- `King.valid_moves`, fuelled. -/
def king_valid_moves (p : Piece) (b : Board) (s e : String) (lm : Option Move)
    (fuel : Nat) : Option Bool :=
  chkStep fuel (.kingVM p b s e lm)

/-- `King.can_castle`, fuelled. -/
def can_castle (p : Piece) (b : Board) (s e : String) (lm : Option Move)
    (fuel : Nat) : Option Bool :=
  chkStep fuel (.castle p b s e lm)

/-! ## `game_logic.py`

`game_logic.is_in_check`, `get_all_legal_moves` and `move_piece` call
`piece.valid_moves(board, start_pos, end_pos)` with **three** arguments for
every non-pawn piece.  `King.valid_moves` requires four, so reaching a King in
those scans raises a `TypeError`.  These functions are therefore embedded in
`Except Unit _`, `.error ()` being the raised `TypeError`; note that the error
happens at call time, before any recursion, so no fuel is needed here. -/

/-- The 3-argument `piece.valid_moves(board, start, end)` dispatch used by
`game_logic.is_in_check`, `get_all_legal_moves` and `move_piece` (with the
4-argument form for pawns).  For a King this call raises `TypeError`
(`valid_moves() missing 1 required positional argument: 'last_move'`). -/
def dispatch3 (p : Piece) (b : Board) (s e : String) (lm : Option Move) :
    Except Unit Bool :=
  match p.ptype with
  | .king => .error ()
  | .pawn => .ok (pawnVM p b s e lm)
  | .queen => .ok (queenVM p b s e)
  | .rook => .ok (rookVM p b s e)
  | .bishop => .ok (bishopVM p b s e)
  | .knight => .ok (knightVM p b s e)

/-- Exception-propagating version of the early-`return True` scan loops. -/
def firstTrueE : List α → (α → Except Unit Bool) → Except Unit Bool
  | [], _ => .ok false
  | x :: xs, f =>
    match f x with
    | .error u => .error u
    | .ok true => .ok true
    | .ok false => firstTrueE xs f

/-- `game_logic.is_in_check`: locate the king (missing king ⇒ `True`), then ask
every opposing piece via the 3-argument dispatch (pawns get 4 arguments). -/
def is_in_check_gl (b : Board) (c : PColor) (lm : Option Move) :
    Except Unit Bool :=
  match findKingPos b c with
  | none => .ok true
  | some kp =>
    firstTrueE squares fun rc =>
      match getS b rc.1 rc.2 with
      | some p =>
        if p.color = opponentOf c then
          dispatch3 p b (indices_to_position rc.2 rc.1) kp lm
        else .ok false
      | none => .ok false

/-- `game_logic.move_piece_simulation`: applies the move unconditionally, with
en passant removal, promotion to a default Queen, and `has_moved` updates.  The
`last_move` parameter is unused in the source body as well. -/
def move_piece_simulation (b : Board) (p : Piece) (s e : String)
    (_lm : Option Move) : Board :=
  let sr := (position_to_indices s).1
  let sc := (position_to_indices s).2
  let er := (position_to_indices e).1
  let ec := (position_to_indices e).2
  let b1 :=
    if p.ptype = .pawn ∧ ((ec : Int) - (sc : Int)).natAbs = 1 ∧
        (getS b er ec).isNone then
      setS b sr ec none
    else b
  let promoRow : Nat := if p.color = .white then 0 else 7
  let pFinal : Piece :=
    if p.ptype = .pawn then
      if er = promoRow then { p with pos := e }
      else { p with pos := e, hasMoved := true }
    else if hasMovedAttr p.ptype then { p with pos := e, hasMoved := true }
    else { p with pos := e }
  let b2 := setS b1 er ec (some pFinal)
  let b3 := setS b2 sr sc none
  if p.ptype = .pawn ∧ er = promoRow then
    setS b3 er ec (some ⟨.queen, p.color, e, false⟩)
  else b3

/-- Processing of one candidate destination square inside
`get_all_legal_moves`: 3-argument validity dispatch, speculative simulation on
a deep copy (a value copy here), then the `is_in_check` filter. -/
def legalAcc (b : Board) (c : PColor) (lm : Option Move) (r cc : Nat)
    (p : Piece) (ms : List Move) (erc : Nat × Nat) : Except Unit (List Move) :=
  let s := indices_to_position cc r
  let e := indices_to_position erc.2 erc.1
  match dispatch3 p b s e lm with
  | .error u => .error u
  | .ok false => .ok ms
  | .ok true =>
    let b2 := move_piece_simulation b p s e lm
    match is_in_check_gl b2 c (some (s, e)) with
    | .error u => .error u
    | .ok true => .ok ms
    | .ok false => .ok (ms ++ [(s, e)])

/-- `game_logic.get_all_legal_moves`. -/
def get_all_legal_moves (b : Board) (c : PColor) (lm : Option Move) :
    Except Unit (List Move) :=
  squares.foldl
    (fun acc rc =>
      match acc with
      | .error u => .error u
      | .ok moves =>
        match getS b rc.1 rc.2 with
        | some p =>
          if p.color = c then
            squares.foldl
              (fun acc2 erc =>
                match acc2 with
                | .error u => .error u
                | .ok ms => legalAcc b c lm rc.1 rc.2 p ms erc)
              (.ok moves)
          else .ok moves
        | none => .ok moves)
    (.ok [])

/-- `'white'` / `'black'` as the strings the source compares. -/
def colorStr : PColor → String
  | .white => "white"
  | .black => "black"

/-- `game_logic.check_game_status`: `(is_over, result)` with
`result ∈ {"white_win", "black_win", "draw"}`. -/
def check_game_status (b : Board) (c : PColor) (lm : Option Move) :
    Except Unit (Bool × Option String) :=
  match is_in_check_gl b c lm with
  | .error u => .error u
  | .ok check =>
    match get_all_legal_moves b c lm with
    | .error u => .error u
    | .ok legal =>
      if check then
        if legal.isEmpty then
          .ok (true, some (colorStr (opponentOf c) ++ "_win"))
        else .ok (false, none)
      else
        if legal.isEmpty then .ok (true, some "draw")
        else .ok (false, none)

/-- Modelled from the spec: `Pawn.promote_pawn` blocks on interactive
`input()` until the user types `Q`, `R`, `B` or `N`; the eventual choice is
abstracted as an oracle value. -/
inductive PromoChoice where
  | queen
  | rook
  | bishop
  | knight
  deriving DecidableEq, Repr

/-- The piece `promote_pawn` constructs for a given choice. -/
def promoPiece : PromoChoice → PColor → String → Piece
  | .queen, c, pos => ⟨.queen, c, pos, false⟩
  | .rook, c, pos => ⟨.rook, c, pos, false⟩
  | .bishop, c, pos => ⟨.bishop, c, pos, false⟩
  | .knight, c, pos => ⟨.knight, c, pos, false⟩

/-- `game_logic.move_piece`.  Returns `.ok (success, board-after)`;
`.error board-at-raise` models an uncaught exception (the `TypeError` of the
3-argument King dispatch, or `set_position`'s `ValueError`).  `promo` is the
interactive promotion choice, as an oracle. -/
def move_piece (promo : PColor → String → PromoChoice) (b : Board)
    (s e : String) (lm : Option Move) : Except Board (Bool × Board) :=
  let sr := (position_to_indices s).1
  let sc := (position_to_indices s).2
  match getS b sr sc with
  | none => .ok (false, b)
  | some piece =>
    match dispatch3 piece b s e lm with
    | .error _ => .error b
    | .ok false => .ok (false, b)
    | .ok true =>
      let er := (position_to_indices e).1
      let ec := (position_to_indices e).2
      let target := getS b er ec
      let b1 :=
        if piece.ptype = .pawn ∧ ((ec : Int) - (sc : Int)).natAbs = 1 ∧
            target.isNone then
          match getS b sr ec with
          | some cp =>
            if cp.ptype = .pawn ∧ cp.color ≠ piece.color then setS b sr ec none
            else b
          | none => b
        else b
      let proceed : Bool :=
        match target with
        | some t => decide (t.color ≠ piece.color)
        | none => true
      if proceed then
        let b2 := setS b1 er ec (some piece)
        let b3 := setS b2 sr sc none
        if is_valid_position e then
          let p1 : Piece := { piece with pos := e }
          let b4 := setS b3 er ec (some p1)
          if piece.ptype = .pawn then
            let promoRow : Nat := if piece.color = .white then 0 else 7
            if er = promoRow then
              let pp := promoPiece (promo piece.color e) piece.color e
              .ok (true, setS b4 er ec (some pp))
            else
              .ok (true, setS b4 er ec (some { p1 with hasMoved := true }))
          else if hasMovedAttr piece.ptype then
            .ok (true, setS b4 er ec (some { p1 with hasMoved := true }))
          else .ok (true, b4)
        else .error b3
      else .ok (false, b1)

/-! ## `board.py`: `initialize_board` -/

/-- An 8×8 board of empty squares. -/
def emptyBoard : Board := List.replicate 8 (List.replicate 8 none)

/-- FEN piece letter to piece, as in the source's if-chain. -/
def pieceOfFen (ch : Char) (pos : String) : Option Piece :=
  let color : PColor := if ch.isUpper then .white else .black
  match ch.toUpper with
  | 'K' => some ⟨.king, color, pos, false⟩
  | 'Q' => some ⟨.queen, color, pos, false⟩
  | 'R' => some ⟨.rook, color, pos, false⟩
  | 'B' => some ⟨.bishop, color, pos, false⟩
  | 'N' => some ⟨.knight, color, pos, false⟩
  | 'P' => some ⟨.pawn, color, pos, false⟩
  | _ => none

/-- Place one FEN rank string onto row `row`.  The source stores
`indices_to_position(row, col)` — arguments swapped against that function's
`(col, row)` signature — as the piece's `position`; kept faithfully. -/
def placeRank (b : Board) (row : Nat) (rank : List Char) : Board :=
  (rank.foldl
    (fun (acc : Board × Nat) ch =>
      if ch.isDigit then (acc.1, acc.2 + (ch.toNat - 48))
      else
        match pieceOfFen ch (indices_to_position row acc.2) with
        | some p => (setS acc.1 row acc.2 (some p), acc.2 + 1)
        | none => (acc.1, acc.2))
    (b, 0)).1

/-- `str.split(sep)` on character lists (Python's `fen.split(' ')` /
`split('/')`). -/
def splitOnChar (sep : Char) (cs : List Char) : List (List Char) :=
  cs.foldr
    (fun ch acc =>
      if ch = sep then [] :: acc
      else
        match acc with
        | [] => [[ch]]
        | g :: rest => (ch :: g) :: rest)
    [[]]

/-- `board.initialize_board`: parse the piece-placement field of a FEN string;
FEN rank `8 - i` goes to row `7 - i`. -/
def initialize_board (fen : String) : Board :=
  let parts := splitOnChar ' ' fen.data
  let placement := parts.getD 0 []
  let ranks := splitOnChar '/' placement
  (ranks.enum).foldl (fun bd ir => placeRank bd (7 - ir.1) ir.2) emptyBoard

/-- The default FEN of `initialize_board`. -/
def defaultFEN : String := "rnbqkbnr/pppppppp/8/8/8/8/PPPPPPPP/RNBQKBNR w KQkq - 0 1"

/-! ## `monte_carlo_algo.py`: MCTS

The tree search is embedded functionally: `MCTSNode` objects with
parent pointers become a tree value plus child-index paths.  Three pieces of
the source are not embeddable and become oracle parameters, over which every
theorem quantifies: `random.choice` (`chooser`), the float-valued
`evaluate_board_with_domain_knowledge` (`evalO`), and the float exploration
term `sqrt(log(visits + 1) / (child.visits + 1e-6))` of UCB1 (`explore`).
Wall-clock early termination is covered by proving facts about every
iteration-count prefix.  Note `simulate_once`'s `while True:` body ends in an
unconditional `return score`, so it is a single pass, not a loop. -/

/-- The abstracted nondeterministic/float ingredients of the MCTS code. -/
structure Oracles where
  chooser : Board → List Move → Move
  evalO : Board → PColor → Option Move → ℚ
  explore : Nat → Nat → ℚ

/-- An `MCTSNode`: board snapshot, colour to move, last-move context, the move
that led here, visit/win counters, and owned children (parent pointers are
replaced by paths from the root). -/
inductive MCNode where
  | mk (board : Board) (color : PColor) (lastMove : Option Move)
      (move : Option Move) (visits : Nat) (wins : ℚ) (children : List MCNode)

def MCNode.board : MCNode → Board
  | .mk b _ _ _ _ _ _ => b

def MCNode.color : MCNode → PColor
  | .mk _ c _ _ _ _ _ => c

def MCNode.lastMove : MCNode → Option Move
  | .mk _ _ lm _ _ _ _ => lm

def MCNode.move : MCNode → Option Move
  | .mk _ _ _ mv _ _ _ => mv

def MCNode.visits : MCNode → Nat
  | .mk _ _ _ _ v _ _ => v

def MCNode.wins : MCNode → ℚ
  | .mk _ _ _ _ _ w _ => w

def MCNode.children : MCNode → List MCNode
  | .mk _ _ _ _ _ _ ch => ch

/-- `MCTSNode.is_fully_expanded`: compares the child count with the legal-move
count (so it re-raises `get_all_legal_moves`' `TypeError`). -/
def isFullyExpanded (n : MCNode) : Except Unit Bool :=
  match get_all_legal_moves n.board n.color n.lastMove with
  | .error u => .error u
  | .ok l => .ok (decide (n.children.length = l.length))

/-- The UCB1 key of `best_child`, with the transcendental factor abstracted as
`exf`: `wins/(visits + 1e-6) + w · exf(parent visits, child visits)`. -/
def ucbKey (exf : Nat → Nat → ℚ) (w : ℚ) (parentVisits : Nat) (c : MCNode) : ℚ :=
  c.wins / ((c.visits : ℚ) + 1 / 1000000) + w * exf parentVisits c.visits

/-- `MCTSNode.best_child` as a child index: `None` on no children, else the
first child attaining the maximal key (Python's `max`). -/
def bestChildIdx (exf : Nat → Nat → ℚ) (w : ℚ) (n : MCNode) : Option Nat :=
  match n.children with
  | [] => none
  | c0 :: rest =>
    some ((rest.foldl
      (fun (acc : Nat × ℚ × Nat) c =>
        let k := ucbKey exf w n.visits c
        if acc.2.1 < k then (acc.2.2, k, acc.2.2 + 1)
        else (acc.1, acc.2.1, acc.2.2 + 1))
      (0, ucbKey exf w n.visits c0, 1)).1)

/-- The selection loop of `mcts`: descend through best children while the
current node is fully expanded and has children; returns the child-index path.
The loop is bounded by the tree depth; `fuel` majorises it (`none` = fuel ran
out, which no theorem's reachable states ever hit). -/
def selectPathF (exf : Nat → Nat → ℚ) : Nat → MCNode → Option (Except Unit (List Nat))
  | 0, _ => none
  | g + 1, n =>
    match isFullyExpanded n with
    | .error u => some (.error u)
    | .ok fe =>
      if fe ∧ ¬n.children.isEmpty then
        match bestChildIdx exf 1 n with
        | none => some (.ok [])
        | some i =>
          match n.children.get? i with
          | none => some (.ok [])
          | some c =>
            match selectPathF exf g c with
            | none => none
            | some (.error u) => some (.error u)
            | some (.ok rest) => some (.ok (i :: rest))
      else some (.ok [])

/-- Node at a child-index path. -/
def nodeAt : MCNode → List Nat → Option MCNode
  | n, [] => some n
  | n, i :: rest =>
    match n.children.get? i with
    | some c => nodeAt c rest
    | none => none

/-- Replace the node at a path. -/
def replaceAt : MCNode → List Nat → MCNode → MCNode
  | _, [], m => m
  | .mk b c lm mv v w ch, i :: rest, m =>
    match ch.get? i with
    | some child => .mk b c lm mv v w (ch.set i (replaceAt child rest m))
    | none => .mk b c lm mv v w ch

/-- `MCTSNode.expand`: materialise the first legal move that has no child yet;
`.ok none` is Python's `return None`.  Returns the updated node and the new
child's index.  A missing piece at the move's origin would raise
(`AttributeError`) inside the simulation; modelled as `.error ()`. -/
def expandNode (n : MCNode) : Except Unit (Option (MCNode × Nat)) :=
  match get_all_legal_moves n.board n.color n.lastMove with
  | .error u => .error u
  | .ok legal =>
    match legal.find? (fun m => ¬n.children.any (fun c => c.move = some m)) with
    | none => .ok none
    | some mv =>
      let sr := (position_to_indices mv.1).1
      let sc := (position_to_indices mv.1).2
      match getS n.board sr sc with
      | none => .error ()
      | some p =>
        let nb := move_piece_simulation n.board p mv.1 mv.2 n.lastMove
        let child : MCNode :=
          .mk nb (opponentOf n.color) (some mv) (some mv) 0 0 []
        .ok (some (.mk n.board n.color n.lastMove n.move n.visits n.wins
          (n.children ++ [child]), n.children.length))

/-- `MCTSNode.backpropagate`, top-down along a path: returns the updated tree
and the value that was added at the top node (the source inverts the reward at
every parent/child boundary of differing colour). -/
def backpropAt : MCNode → List Nat → ℚ → MCNode × ℚ
  | .mk b c lm mv v w ch, [], r => (.mk b c lm mv (v + 1) (w + r) ch, r)
  | .mk b c lm mv v w ch, i :: rest, r =>
    match ch.get? i with
    | none => (.mk b c lm mv v w ch, r)
    | some child =>
      let cr := backpropAt child rest r
      let rHere := if cr.1.color ≠ c then 1 - cr.2 else cr.2
      (.mk b c lm mv (v + 1) (w + rHere) (ch.set i cr.1), rHere)

/-- `MCTSNode.simulate_once`.  The `while True:` body returns unconditionally
at its end, so this is a single pass: terminal positions are rewarded
±1000/0 (the comparison `result == current_color` compares `"white_win"`-style
strings with `"white"`-style strings, exactly as the source does), otherwise
one random move is applied and the domain evaluation returned. -/
def simulate_once (oc : Oracles) (b : Board) (c : PColor) (lm : Option Move) :
    Except Unit ℚ :=
  match check_game_status b c lm with
  | .error u => .error u
  | .ok st =>
    if st.1 then
      .ok (if st.2 = some (colorStr c) then 1000
           else if st.2 = some "draw" then 0 else -1000)
    else
      match get_all_legal_moves b c lm with
      | .error u => .error u
      | .ok legal =>
        if legal.isEmpty then .ok (-1000)
        else
          let mv := oc.chooser b legal
          let sr := (position_to_indices mv.1).1
          let sc := (position_to_indices mv.1).2
          match getS b sr sc with
          | none => .error ()
          | some p =>
            let b2 := move_piece_simulation b p mv.1 mv.2 lm
            .ok (oc.evalO b2 (opponentOf c) (some mv))

/-- `MCTSNode.simulate_parallel` with `n_simulations = 10`: ten independent
playouts averaged.  Each playout clones its own board; in the embedding the
ten calls are identical terms (the oracles are deterministic; no reachable
input of any theorem ever consults them, see `simulate_once`). -/
def simulate_parallel (oc : Oracles) (b : Board) (c : PColor)
    (lm : Option Move) : Except Unit ℚ :=
  let collected := (List.range 10).foldr
    (fun _ (acc : Except Unit (List ℚ)) =>
      match simulate_once oc b c lm, acc with
      | .error u, _ => .error u
      | _, .error u => .error u
      | .ok x, .ok xs => .ok (x :: xs))
    (.ok ([] : List ℚ))
  match collected with
  | .error u => .error u
  | .ok xs => .ok (xs.sum / (xs.length : ℚ))

/-- One iteration of the `mcts` main loop: selection, expansion, simulation,
backpropagation.  `none` = selection fuel ran out. -/
def mctsIter (oc : Oracles) (fuel : Nat) (root : MCNode) :
    Option (Except Unit MCNode) :=
  match selectPathF oc.explore fuel root with
  | none => none
  | some (.error u) => some (.error u)
  | some (.ok path) =>
    match nodeAt root path with
    | none => some (.ok root)
    | some node =>
      match isFullyExpanded node with
      | .error u => some (.error u)
      | .ok fe =>
        if ¬fe then
          match expandNode node with
          | .error u => some (.error u)
          | .ok none => some (.ok root)
          | .ok (some nc) =>
            let root' := replaceAt root path nc.1
            match nodeAt root' (path ++ [nc.2]) with
            | none => some (.ok root')
            | some child =>
              match simulate_parallel oc child.board child.color child.lastMove with
              | .error u => some (.error u)
              | .ok r => some (.ok (backpropAt root' (path ++ [nc.2]) r).1)
        else
          match simulate_parallel oc node.board node.color node.lastMove with
          | .error u => some (.error u)
          | .ok r => some (.ok (backpropAt root path r).1)

/-- The root node `mcts` builds. -/
def mctsRoot (b : Board) (c : PColor) (lm : Option Move) : MCNode :=
  .mk b c lm none 0 0 []

/-- The state of the `mcts` search tree after `k` completed loop iterations
(a wall-clock `time_limit` break simply stops at a smaller `k`). -/
def mctsRun (oc : Oracles) (fuel : Nat) (b : Board) (c : PColor)
    (lm : Option Move) : Nat → Option (Except Unit MCNode)
  | 0 => some (.ok (mctsRoot b c lm))
  | k + 1 =>
    match mctsRun oc fuel b c lm k with
    | none => none
    | some (.error u) => some (.error u)
    | some (.ok s) => mctsIter oc fuel s

/-- `mcts`' final answer: the zero-exploration best child's move. -/
def mcts (oc : Oracles) (fuel : Nat) (b : Board) (c : PColor)
    (lm : Option Move) (simulations : Nat) :
    Option (Except Unit (Option Move)) :=
  match mctsRun oc fuel b c lm simulations with
  | none => none
  | some (.error u) => some (.error u)
  | some (.ok s) =>
    some (.ok (match bestChildIdx oc.explore 0 s with
      | some i => ((s.children.get? i).map MCNode.move).join
      | none => none))

/-! ## A heap model of `get_all_legal_moves` (for the frame claim)

The value-level embedding above cannot distinguish Python's
`copy.deepcopy(board)` from a shallow copy, yet that distinction is exactly
what the frame property of `get_all_legal_moves` is about: the speculative
`move_piece_simulation` calls mutate piece objects in place, and only the deep
copy keeps those mutations away from the pieces the input board references.
This section re-embeds the same code with piece objects *in a heap*: a board
square holds a piece id (heap index) or `None`, `deepcopy` allocates fresh
ids, and attribute mutation is a heap update at the object's id.  Attribute
*reads* (inside the pure `valid_moves` predicates and `is_in_check`) simply
dereference, so they are performed on the `resolve`d value board using the
value-level functions above. -/

/-- The heap of piece objects; a piece id is an index into it. -/
abbrev Heap := List Piece

/-- A board whose squares hold piece ids. -/
abbrev HBoard := List (List (Option Nat))

/-- Read a square's piece id. -/
def getH (b : HBoard) (r c : Nat) : Option Nat :=
  gridGet b r c none

/-- Write a square's piece id. -/
def setH (b : HBoard) (r c : Nat) (v : Option Nat) : HBoard :=
  gridSet b r c v

/-- Dereference every square: the board value that Python reads observe. -/
def resolve (h : Heap) (b : HBoard) : Board :=
  b.map fun row => row.map fun oid => oid.bind fun i => h[i]?

/-- An 8×8 id board of empty squares. -/
def emptyHB : HBoard := List.replicate 8 (List.replicate 8 none)

/-- `copy.deepcopy(board)`: a fresh grid whose occupied squares point at
freshly allocated copies of the original piece objects. -/
def deepcopyH (h : Heap) (b : HBoard) : Heap × HBoard :=
  squares.foldl
    (fun acc rc =>
      match (getH b rc.1 rc.2).bind (fun i => h[i]?) with
      | some st => (acc.1 ++ [st], setH acc.2 rc.1 rc.2 (some acc.1.length))
      | none => acc)
    (h, emptyHB)

/-- `move_piece_simulation` on the heap model: grid writes plus in-place
mutation (heap update) of the moved piece object's `position` / `has_moved`,
and a fresh `Queen` allocation on promotion.  A `None` piece would raise
`AttributeError` at `piece.position = end_pos` in the source; at that point
the grid writes have happened and the heap is untouched, which is the state
this function returns. -/
def move_piece_simulationH (h : Heap) (b : HBoard) (pid : Option Nat)
    (s e : String) : Heap × HBoard :=
  let sr := (position_to_indices s).1
  let sc := (position_to_indices s).2
  let er := (position_to_indices e).1
  let ec := (position_to_indices e).2
  let pstate := pid.bind fun i => h[i]?
  let b1 :=
    match pstate with
    | some p =>
      if p.ptype = .pawn ∧ ((ec : Int) - (sc : Int)).natAbs = 1 ∧
          (getH b er ec).isNone then
        setH b sr ec none
      else b
    | none => b
  let b2 := setH b1 er ec pid
  let b3 := setH b2 sr sc none
  match pid, pstate with
  | some i, some p =>
    let promoRow : Nat := if p.color = .white then 0 else 7
    let p1 : Piece :=
      if p.ptype = .pawn then
        if er = promoRow then { p with pos := e }
        else { p with pos := e, hasMoved := true }
      else if hasMovedAttr p.ptype then { p with pos := e, hasMoved := true }
      else { p with pos := e }
    let h1 := h.set i p1
    if p.ptype = .pawn ∧ er = promoRow then
      (h1 ++ [⟨.queen, p.color, e, false⟩], setH b3 er ec (some h1.length))
    else (h1, b3)
  | _, _ => (h, b3)

/-- `get_all_legal_moves` on the heap model, threading the heap: every
speculative simulation runs on `deepcopyH`'s fresh copy, and the in-check
filter reads the copy through the heap. -/
def get_all_legal_movesH (h : Heap) (b : HBoard) (c : PColor)
    (lm : Option Move) : Except Unit (List Move) × Heap :=
  squares.foldl
    (fun (acc : Except Unit (List Move) × Heap) rc =>
      match acc.1 with
      | .error _ => acc
      | .ok _ =>
        match (getH b rc.1 rc.2).bind (fun i => acc.2[i]?) with
        | some p =>
          if p.color = c then
            squares.foldl
              (fun (acc2 : Except Unit (List Move) × Heap) erc =>
                match acc2.1 with
                | .error _ => acc2
                | .ok ms =>
                  let s := indices_to_position rc.2 rc.1
                  let e := indices_to_position erc.2 erc.1
                  match dispatch3 p (resolve acc2.2 b) s e lm with
                  | .error u => (.error u, acc2.2)
                  | .ok false => acc2
                  | .ok true =>
                    let hc := deepcopyH acc2.2 b
                    let pid := getH hc.2 rc.1 rc.2
                    let hs := move_piece_simulationH hc.1 hc.2 pid s e
                    match is_in_check_gl (resolve hs.1 hs.2) c (some (s, e)) with
                    | .error u => (.error u, hs.1)
                    | .ok true => (.ok ms, hs.1)
                    | .ok false => (.ok (ms ++ [(s, e)]), hs.1))
              acc
          else acc
        | none => acc)
    (.ok [], h)

/-! ## Concrete boards used by the claims -/

/-- Build a board by placing pieces on the given `(row, col)` squares. -/
def boardOf (l : List (Nat × Nat × Piece)) : Board :=
  l.foldl (fun b x => setS b x.1 x.2.1 (some x.2.2)) emptyBoard

/-- A White rook on a2 and a Black rook on a8, no kings: here
`get_all_legal_moves` returns normally (and, king-less, returns `[]`), while
`move_piece` still applies rook moves. -/
def bC1 : Board :=
  boardOf [(1, 0, ⟨.rook, .white, "a2", false⟩), (7, 0, ⟨.rook, .black, "a8", false⟩)]

/-- A castling-ready board: unmoved White king e1 and rook h1, f1/g1 empty,
Black king far away on h8. -/
def bC2 : Board :=
  boardOf [(0, 4, ⟨.king, .white, "e1", false⟩), (0, 7, ⟨.rook, .white, "h1", false⟩),
    (7, 7, ⟨.king, .black, "h8", false⟩)]

/-- A lone White pawn on g7, one step from its farthest rank (rank 8, row 7). -/
def bC3 : Board := boardOf [(6, 6, ⟨.pawn, .white, "g7", true⟩)]

/-- A Black king on a8 whose flight square b8 is covered by the White rook on
b1: the Black king geometrically attacks b8, but its `valid_moves` consults
check-safety and denies the move. -/
def bC4 : Board :=
  boardOf [(7, 0, ⟨.king, .black, "a8", false⟩), (0, 1, ⟨.rook, .white, "b1", false⟩)]

/-- The en-passant position: White pawn on e5, Black pawn on d5 (which has
just double-stepped d7→d5). -/
def bC7 : Board :=
  boardOf [(4, 4, ⟨.pawn, .white, "e5", true⟩), (4, 3, ⟨.pawn, .black, "d5", true⟩)]

/-- A board on which `is_square_attacked` does not terminate: both kings
unmoved with their kingside rooks and clear gaps, placed so that (through
`can_castle`'s swapped-argument attack queries) the Black king's castling test
asks whether e7 is attacked, the White king's answering castling test asks
whether g5 is attacked, and the Black king's castling test is re-entered with
identical arguments. -/
def bC9 : Board :=
  boardOf [(6, 2, ⟨.king, .white, "c7", false⟩), (6, 7, ⟨.rook, .white, "h7", false⟩),
    (4, 4, ⟨.king, .black, "e5", false⟩), (4, 7, ⟨.rook, .black, "h5", false⟩)]

/-- The Black king piece of `bC9`. -/
def pieceBK : Piece := ⟨.king, .black, "e5", false⟩

/-! ## Grid access lemmas -/

theorem gridGet_gridSet_ne {α : Type} {b : List (List α)} {r c r' c' : Nat} {v d : α}
    (h : r ≠ r' ∨ c ≠ c') :
    gridGet (gridSet b r c v) r' c' d = gridGet b r' c' d := by
  unfold gridGet gridSet
  rcases eq_or_ne r r' with rfl | hr
  · have hc : c ≠ c' := h.resolve_left fun hh => hh rfl
    by_cases hlen : r < b.length
    · simp only [List.getD_eq_getElem?_getD, List.getElem?_set_self hlen, Option.getD_some,
        List.getElem?_set_ne hc]
    · rw [List.set_eq_of_length_le (Nat.le_of_not_lt hlen)]
  · simp only [List.getD_eq_getElem?_getD, List.getElem?_set_ne hr]

theorem gridGet_gridSet_self {α : Type} {b : List (List α)} {r c : Nat} {v d : α}
    (hr : r < b.length) (hc : c < (b.getD r []).length) :
    gridGet (gridSet b r c v) r c d = v := by
  unfold gridGet gridSet
  rw [List.getD_eq_getElem?_getD] at hc
  simp only [List.getD_eq_getElem?_getD, List.getElem?_set_self hr, Option.getD_some,
    List.getElem?_set_self hc]

theorem gridGet_gridSet_cases {α : Type} (b : List (List α)) (r c r' c' : Nat) (v d : α) :
    gridGet (gridSet b r c v) r' c' d = v ∨
      gridGet (gridSet b r c v) r' c' d = gridGet b r' c' d := by
  by_cases h : r = r' ∧ c = c'
  · obtain ⟨rfl, rfl⟩ := h
    by_cases hr : r < b.length
    · by_cases hc : c < (b.getD r []).length
      · exact .inl (gridGet_gridSet_self hr hc)
      · right
        unfold gridGet gridSet
        rw [List.set_eq_of_length_le (Nat.le_of_not_lt hc)]
        simp only [List.getD_eq_getElem?_getD, List.getElem?_set_self hr, Option.getD_some]
    · right
      unfold gridGet gridSet
      rw [List.set_eq_of_length_le (Nat.le_of_not_lt hr)]
  · exact .inr (gridGet_gridSet_ne (not_and_or.mp h))

/-- `setS` specialisation of `gridGet_gridSet_ne`. -/
theorem getS_setS_ne {b : Board} {r c r' c' : Nat} {v : Option Piece}
    (h : r ≠ r' ∨ c ≠ c') : getS (setS b r c v) r' c' = getS b r' c' :=
  gridGet_gridSet_ne h

/-- `setS` specialisation of `gridGet_gridSet_self`. -/
theorem getS_setS_self {b : Board} {r c : Nat} {v : Option Piece}
    (hr : r < b.length) (hc : c < (b.getD r []).length) :
    getS (setS b r c v) r c = v :=
  gridGet_gridSet_self hr hc

/-- `setS` specialisation of `gridGet_gridSet_cases`. -/
theorem getS_setS_cases (b : Board) (r c r' c' : Nat) (v : Option Piece) :
    getS (setS b r c v) r' c' = v ∨ getS (setS b r c v) r' c' = getS b r' c' :=
  gridGet_gridSet_cases b r c r' c' v none

/-! ## Claim theorems -/

/-- Post-composition of an `Option Bool` computation, used to state the
partially evaluated unfoldings of `chkStep` on `bC9`. -/
def o3 (x t f : Option Bool) : Option Bool :=
  match x with
  | none => none
  | some true => t
  | some false => f

/-- Unfolding `can_castle` for the Black king of `bC9` six fuel levels: the
computation passes through the White king's `can_castle` and returns to the
same call with six fewer units of fuel. -/
theorem chk_castle_cycle_step (g : Nat) :
    chkStep (g + 6) (.castle pieceBK bC9 "e5" "g5" none)
      = o3 (o3 (o3 (o3 (o3 (o3 (chkStep g (.castle pieceBK bC9 "e5" "g5" none))
          (some true) (some true)) (some true) (some false)) (some false) (some true))
          (some true) (some true)) (some true) (some false)) (some false) (some true) := rfl

/-- The `can_castle` query of `bC9`'s Black king exhausts any amount of fuel. -/
theorem chk_castle_cycle_none :
    ∀ g, chkStep g (.castle pieceBK bC9 "e5" "g5" none) = none := by
  intro g
  induction g using Nat.strong_induction_on with
  | _ g ih =>
    match g with
    | 0 => rfl
    | 1 => rfl
    | 2 => rfl
    | 3 => rfl
    | 4 => rfl
    | 5 => rfl
    | m + 6 =>
      rw [chk_castle_cycle_step m, ih m (by omega)]
      rfl

/-- `is_square_attacked bC9 "g5" white` reaches the Black king's castling test
after two units of fuel. -/
theorem chk_attacked_g5_step (g : Nat) :
    chkStep (g + 2) (.attacked bC9 "g5" .white none)
      = o3 (chkStep g (.castle pieceBK bC9 "e5" "g5" none))
          (some true) (some true) := rfl

/-- C9: the mutual recursion `is_square_attacked → King.valid_moves →
can_castle → is_square_attacked` is *not* well-founded: on `bC9`, the query
whether g5 is attacked for White exhausts every amount of fuel (the Python
code recurses forever and dies with `RecursionError`), refuting the claimed
termination. -/
theorem C9_is_square_attacked_diverges :
    ∀ fuel : Nat, is_square_attacked bC9 "g5" PColor.white none fuel = none := by
  intro fuel
  match fuel with
  | 0 => rfl
  | 1 => rfl
  | g + 2 =>
    show chkStep (g + 2) _ = none
    rw [chk_attacked_g5_step g, chk_castle_cycle_none g]
    rfl

/-- C5: algebraic-square strings and index pairs round-trip exactly through
`position_to_indices` / `indices_to_position` (the latter takes the column
first, as in the source). -/
theorem C5_position_roundtrip :
    (∀ p : String, is_valid_position p = true →
      indices_to_position (position_to_indices p).2 (position_to_indices p).1 = p) ∧
    (∀ col row : Nat, col < 8 → row < 8 →
      position_to_indices (indices_to_position col row) = (row, col)) := by
  constructor
  · intro p hv
    obtain ⟨data⟩ := p
    simp only [is_valid_position, Bool.and_eq_true, decide_eq_true_eq, String.data] at hv
    obtain ⟨⟨hlen, hf⟩, hr⟩ := hv
    obtain ⟨f, r, rfl⟩ := List.length_eq_two.mp hlen
    simp only [List.getD_cons_zero, List.getD_cons_succ, List.contains_cons,
      List.contains_nil, Bool.or_eq_true, beq_iff_eq, Bool.false_eq_true, or_false] at hf hr
    rcases hf with rfl | rfl | rfl | rfl | rfl | rfl | rfl | rfl <;>
      rcases hr with rfl | rfl | rfl | rfl | rfl | rfl | rfl | rfl <;> decide
  · intro col row hc hr
    interval_cases col <;> interval_cases row <;> decide

/-- Witness for C5 at `"e4"` and `(col, row) = (4, 3)`. -/
theorem C5_position_roundtrip_witness :
    indices_to_position (position_to_indices "e4").2 (position_to_indices "e4").1 = "e4" ∧
    position_to_indices (indices_to_position 4 3) = (3, 4) :=
  ⟨C5_position_roundtrip.1 "e4" (by decide), C5_position_roundtrip.2 4 3 (by decide) (by decide)⟩

/-- Counterexample to C1: on `bC1` (no White king), `get_all_legal_moves`
returns the empty list, yet `move_piece` applies the rook move a2→a3 — a move
not contained in the legal-move list — reports success, and changes the
board. -/
theorem C1_counterexample :
    get_all_legal_moves bC1 .white none = .ok [] ∧
    (move_piece (fun _ _ => .queen) bC1 "a2" "a3" none).toOption.map Prod.fst
      = some true ∧
    (move_piece (fun _ _ => .queen) bC1 "a2" "a3" none).toOption.map Prod.snd
      ≠ some bC1 := by
  refine ⟨rfl, rfl, ?_⟩
  decide

/-- C2: on the castling-ready `bC2`, `can_castle` accepts e1→g1, but
`move_piece` raises `TypeError` (it calls `King.valid_moves` without
`last_move`), leaving the board unchanged: the rook never reaches f1 — indeed
`move_piece` contains no rook-relocation code at all. -/
theorem C2_castling_rook_never_moves :
    can_castle ⟨.king, .white, "e1", false⟩ bC2 "e1" "g1" none 10 = some true ∧
    move_piece (fun _ _ => .queen) bC2 "e1" "g1" none = .error bC2 ∧
    getS bC2 0 7 = some ⟨.rook, .white, "h1", false⟩ :=
  ⟨rfl, rfl, rfl⟩

/-- C3: the promotion test is inverted.  The White pawn's legal push g7→g8
reaches White's farthest rank (row 7), but both `move_piece_simulation` and
`move_piece` compare against `promotion_row = 0` for White, so the pawn stays
a pawn (only `has_moved` is set) instead of being replaced by a Queen. -/
theorem C3_promotion_row_inverted :
    pawnVM ⟨.pawn, .white, "g7", true⟩ bC3 "g7" "g8" none = true ∧
    getS (move_piece_simulation bC3 ⟨.pawn, .white, "g7", true⟩ "g7" "g8" none) 7 6
      = some ⟨.pawn, .white, "g8", true⟩ ∧
    (move_piece (fun _ _ => .queen) bC3 "g7" "g8" none).toOption.map
        (fun r => (r.1, getS r.2 7 6))
      = some (true, some ⟨.pawn, .white, "g8", true⟩) :=
  ⟨rfl, rfl, rfl⟩

/-- Counterexample to C4: on `bC4` the Black king geometrically attacks b8,
but `is_square_attacked` returns `False` for b8, because the King's
`valid_moves` recurses into check-safety (b8 is covered by the White rook).
Attack detection is therefore *not* one-ply for King attackers. -/
theorem C4_counterexample :
    geometricAttack bC4 "b8" .white none = true ∧
    is_square_attacked bC4 "b8" .white none 10 = some false ∧
    is_square_attacked bC4 "b8" .white none 1000 = some false :=
  ⟨rfl, rfl, rfl⟩

/-- C6: on the standard starting position, `get_all_legal_moves` for White
does not return 20 moves — it raises `TypeError`.  While testing White's very
first geometrically valid candidate (Nb1–a3), `game_logic.is_in_check` scans
Black's pieces and calls the Black king's `valid_moves` with three arguments
where four are required. -/
theorem C6_get_all_legal_moves_initial_raises :
    get_all_legal_moves (initialize_board defaultFEN) .white none = .error () := rfl

/-- A valid square string is exactly a lowercase file letter and a rank
digit. -/
theorem is_valid_position_shape (p : String) (h : is_valid_position p = true) :
    ∃ f r, p = ⟨[f, r]⟩ ∧
      (f = 'a' ∨ f = 'b' ∨ f = 'c' ∨ f = 'd' ∨ f = 'e' ∨ f = 'f' ∨ f = 'g' ∨ f = 'h') ∧
      (r = '1' ∨ r = '2' ∨ r = '3' ∨ r = '4' ∨ r = '5' ∨ r = '6' ∨ r = '7' ∨ r = '8') := by
  obtain ⟨data⟩ := p
  simp only [is_valid_position, Bool.and_eq_true, decide_eq_true_eq, String.data] at h
  obtain ⟨⟨hlen, hf⟩, hr⟩ := h
  obtain ⟨f, r, rfl⟩ := List.length_eq_two.mp hlen
  simp only [List.getD_cons_zero, List.getD_cons_succ, List.contains_cons, List.contains_nil,
    Bool.or_eq_true, beq_iff_eq, Bool.false_eq_true, or_false] at hf hr
  exact ⟨f, r, rfl, hf, hr⟩

/-- Valid square strings convert to indices below 8. -/
theorem valid_pos_lt (p : String) (h : is_valid_position p = true) :
    (position_to_indices p).1 < 8 ∧ (position_to_indices p).2 < 8 := by
  obtain ⟨f, r, rfl, hf, hr⟩ := is_valid_position_shape p h
  constructor
  · show (String.data ⟨[f, r]⟩ |>.getD 1 '1').toNat - 49 < 8
    rcases hr with rfl | rfl | rfl | rfl | rfl | rfl | rfl | rfl <;> simp
  · show ((String.data ⟨[f, r]⟩ |>.getD 0 'a').toLower).toNat - 97 < 8
    rcases hf with rfl | rfl | rfl | rfl | rfl | rfl | rfl | rfl <;> simp

/-- A pawn move accepted by `Pawn.valid_moves` that changes file by one is a
diagonal step: its row change equals the pawn's direction. -/
theorem pawnVM_diag_row (p : Piece) (b : Board) (s e : String) (lm : Option Move)
    (hv : pawnVM p b s e lm = true)
    (hcol : (((position_to_indices e).2 : Int) - ((position_to_indices s).2 : Int)).natAbs = 1) :
    ((position_to_indices e).1 : Int) - ((position_to_indices s).1 : Int) =
      (if p.color = .white then 1 else -1) := by
  unfold pawnVM at hv
  rw [if_neg (by intro h0; rw [h0] at hcol; simp at hcol)] at hv
  by_cases h2 : (((position_to_indices e).2 : Int) - ((position_to_indices s).2 : Int)).natAbs = 1 ∧
      ((position_to_indices e).1 : Int) - ((position_to_indices s).1 : Int) =
        (if p.color = .white then 1 else -1)
  · exact h2.2
  · rw [if_neg h2] at hv
    exact absurd hv (by simp)

/-- C7: whenever `move_piece` successfully applies a pawn move that goes one
file sideways onto an empty destination square, and the square at the pawn's
origin rank and the destination file holds an opposing pawn, that square is
emptied (the en-passant victim is removed from the origin rank, not the
destination square). -/
theorem C7_en_passant_removes_victim
    (promo : PColor → String → PromoChoice) (b : Board) (s e : String)
    (lm : Option Move) (p q : Piece) (b' : Board)
    (hdim : b.length = 8) (hrow : ∀ row ∈ b, row.length = 8)
    (hs : is_valid_position s = true) (he : is_valid_position e = true)
    (hp : getS b (position_to_indices s).1 (position_to_indices s).2 = some p)
    (hpt : p.ptype = .pawn)
    (hcol : (((position_to_indices e).2 : Int) - ((position_to_indices s).2 : Int)).natAbs = 1)
    (hempty : getS b (position_to_indices e).1 (position_to_indices e).2 = none)
    (hq : getS b (position_to_indices s).1 (position_to_indices e).2 = some q)
    (hqt : q.ptype = .pawn) (hqc : q.color ≠ p.color)
    (hmv : move_piece promo b s e lm = .ok (true, b')) :
    getS b' (position_to_indices s).1 (position_to_indices e).2 = none := by
  have hv : pawnVM p b s e lm = true := by
    cases hv : pawnVM p b s e lm with
    | true => rfl
    | false =>
      unfold move_piece at hmv
      simp [hp, dispatch3, hpt, hv] at hmv
  have hrd := pawnVM_diag_row p b s e lm hv hcol
  have hsne : (position_to_indices e).1 ≠ (position_to_indices s).1 := by
    intro hEq
    rw [hEq] at hrd
    by_cases hw : p.color = .white <;> simp [hw] at hrd
  have hcne : (position_to_indices e).2 ≠ (position_to_indices s).2 := by
    intro hEq
    rw [hEq] at hcol
    simp at hcol
  obtain ⟨hsr8, hsc8⟩ := valid_pos_lt s hs
  obtain ⟨her8, hec8⟩ := valid_pos_lt e he
  unfold move_piece at hmv
  simp [hp, dispatch3, hpt, hv, hempty, hq, hqt, hqc, hcol, he] at hmv
  have hbl : (position_to_indices s).1 < b.length := by omega
  have hmem : b.getD (position_to_indices s).1 [] ∈ b := by
    rw [List.getD_eq_getElem?_getD, List.getElem?_eq_getElem hbl]
    simp only [Option.getD_some]
    exact List.getElem_mem hbl
  have hcl : (position_to_indices e).2 < (b.getD (position_to_indices s).1 []).length := by
    rw [hrow _ hmem]; exact hec8
  split at hmv <;> split at hmv <;>
    (simp only [Except.ok.injEq, Prod.mk.injEq, true_and] at hmv
     subst hmv
     rw [getS_setS_ne (Or.inl hsne), getS_setS_ne (Or.inl hsne),
       getS_setS_ne (Or.inr (Ne.symm hcne)), getS_setS_ne (Or.inl hsne),
       getS_setS_self hbl hcl])

/-- C1 amended: when the piece's own `valid_moves` dispatch (as `move_piece`
performs it) rejects the move, `move_piece` reports failure and returns the
board unchanged.  (For a King the dispatch raises instead of returning
`False`, so the hypothesis also restricts to non-King pieces.) -/
theorem C1_amended (promo : PColor → String → PromoChoice) (b : Board)
    (s e : String) (lm : Option Move) (p : Piece)
    (hp : getS b (position_to_indices s).1 (position_to_indices s).2 = some p)
    (hv : dispatch3 p b s e lm = .ok false) :
    move_piece promo b s e lm = .ok (false, b) := by
  unfold move_piece
  simp [hp, hv]

/-- Witness for the amended C1: the off-line rook move a2→e7 on `bC1` fails
and leaves the board unchanged. -/
theorem C1_amended_witness :
    move_piece (fun _ _ => .queen) bC1 "a2" "e7" none = .ok (false, bC1) :=
  C1_amended (fun _ _ => .queen) bC1 "a2" "e7" none ⟨.rook, .white, "a2", false⟩ rfl rfl

/-- Is a king of the given colour somewhere on the board? -/
def hasKingB (b : Board) (c : PColor) : Bool :=
  squares.any fun rc =>
    match getS b rc.1 rc.2 with
    | some p => decide (p.ptype = .king) && decide (p.color = c)
    | none => false

/-- An early-`return True` scan whose element results are all `some` computes
the boolean `any` of the underlying predicate. -/
theorem firstTrueM_eq_any (l : List α) (f : α → Option Bool) (gf : α → Bool)
    (h : ∀ x ∈ l, f x = some (gf x)) :
    firstTrueM l f = some (l.any gf) := by
  induction l with
  | nil => rfl
  | cons x xs ih =>
    have hx := h x (List.mem_cons_self x xs)
    show (match f x with
      | none => none
      | some true => some true
      | some false => firstTrueM xs f) = some ((x :: xs).any gf)
    rw [hx]
    cases hgx : gf x
    · simp only [List.any_cons, hgx, Bool.false_or]
      exact ih fun y hy => h y (List.mem_cons_of_mem x hy)
    · simp [List.any_cons, hgx]

/-- C4 amended: when no opposing King is on the board, `is_square_attacked`
computes exactly the spec's one-ply geometric attack predicate (with any
amount of fuel); the counterexample shows the equivalence fails for King
attackers, whose movement rule recurses into check-safety. -/
theorem C4_amended (b : Board) (pos : String) (c : PColor) (lm : Option Move) (g : Nat)
    (hk : hasKingB b (opponentOf c) = false) :
    is_square_attacked b pos c lm (g + 1) = some (geometricAttack b pos c lm) := by
  show chkStep (g + 1) _ = _
  rw [show chkStep (g + 1) (.attacked b pos c lm)
      = firstTrueM squares (fun rc =>
          match getS b rc.1 rc.2 with
          | some p =>
            if p.color = opponentOf c then
              let sp := indices_to_position rc.2 rc.1
              match p.ptype with
              | .king => chkStep g (.kingVM p b sp pos lm)
              | .pawn => some (pawnVM p b sp pos lm)
              | .queen => some (queenVM p b sp pos)
              | .rook => some (rookVM p b sp pos)
              | .bishop => some (bishopVM p b sp pos)
              | .knight => some (knightVM p b sp pos)
            else some false
          | none => some false) from rfl]
  simp only [geometricAttack]
  apply firstTrueM_eq_any
  intro rc hrc
  cases hgs : getS b rc.1 rc.2 with
  | none => simp [hgs]
  | some p =>
    by_cases hco : p.color = opponentOf c
    · have hnk : p.ptype ≠ .king := by
        intro hpt
        have hne : ¬ (squares.any fun rc =>
            match getS b rc.1 rc.2 with
            | some p => decide (p.ptype = .king) && decide (p.color = opponentOf c)
            | none => false) = true := by rw [← hasKingB]; simp [hk]
        apply hne
        rw [List.any_eq_true]
        exact ⟨rc, hrc, by simp [hgs, hpt, hco]⟩
      cases hpt : p.ptype
      · exact absurd hpt hnk
      all_goals simp [hgs, hco, hpt]
    · simp [hgs, hco]

/-- Witness for the amended C4: on the kingless `bC1`, attack detection for
Black agrees with the geometric predicate at a5. -/
theorem C4_amended_witness :
    is_square_attacked bC1 "a5" .black none 1
      = some (geometricAttack bC1 "a5" .black none) :=
  C4_amended bC1 "a5" .black none 0 (by decide)

/-- The board after White's en-passant capture e5×d6 on `bC7`. -/
def bC7after : Board :=
  match move_piece (fun _ _ => .queen) bC7 "e5" "d6" (some ("d7", "d5")) with
  | .ok r => r.2
  | .error bb => bb

/-- Witness for C7: on `bC7` (White pawn e5, Black pawn d5 just arrived from
d7), e5×d6 succeeds and the Black pawn is removed from d5. -/
theorem C7_en_passant_witness :
    getS bC7after (position_to_indices "e5").1 (position_to_indices "d6").2 = none :=
  C7_en_passant_removes_victim (fun _ _ => .queen) bC7 "e5" "d6" (some ("d7", "d5"))
    ⟨.pawn, .white, "e5", true⟩ ⟨.pawn, .black, "d5", true⟩ bC7after
    (by decide) (by decide) (by decide) (by decide) rfl rfl (by decide) rfl rfl rfl
    (by decide) rfl

/-! ### The frame property of `get_all_legal_moves` (heap model) -/

/-- Fold-invariant preservation. -/
theorem foldl_pres {α β : Type} (P : β → Prop) (f : β → α → β)
    (hstep : ∀ acc x, P acc → P (f acc x)) :
    ∀ (l : List α) (acc : β), P acc → P (l.foldl f acc) := by
  intro l
  induction l with
  | nil => intro acc hacc; exact hacc
  | cons x xs ih => intro acc hacc; exact ih (f acc x) (hstep acc x hacc)

/-- The empty id board has no ids. -/
theorem getH_emptyHB (r c : Nat) : getH emptyHB r c = none := by
  unfold getH emptyHB gridGet
  simp only [List.getD_eq_getElem?_getD, List.getElem?_replicate]
  split
  · simp only [Option.getD_some, List.getElem?_replicate]
    split <;> rfl
  · rfl

/-- Extension of a heap: all previously allocated piece objects keep their
exact states. -/
def HeapExt (h h' : Heap) : Prop :=
  h.length ≤ h'.length ∧ ∀ i, i < h.length → h'[i]? = h[i]?

theorem HeapExt.refl (h : Heap) : HeapExt h h := ⟨le_refl _, fun _ _ => rfl⟩

theorem HeapExt.trans {h1 h2 h3 : Heap} (a : HeapExt h1 h2) (b : HeapExt h2 h3) :
    HeapExt h1 h3 :=
  ⟨le_trans a.1 b.1, fun i hi => (b.2 i (lt_of_lt_of_le hi a.1)).trans (a.2 i hi)⟩

/-- `deepcopyH` extends the heap and gives the copy only fresh ids. -/
theorem deepcopyH_spec (h : Heap) (b : HBoard) :
    HeapExt h (deepcopyH h b).1 ∧
      (∀ r c k, getH (deepcopyH h b).2 r c = some k → h.length ≤ k) := by
  unfold deepcopyH
  apply foldl_pres
    (fun (acc : Heap × HBoard) => HeapExt h acc.1 ∧
      ∀ r c k, getH acc.2 r c = some k → h.length ≤ k)
  · rintro ⟨hp, grid⟩ rc ⟨hext, hfresh⟩
    cases hbv : (getH b rc.1 rc.2).bind (fun i => h[i]?) with
    | none => exact ⟨hext, hfresh⟩
    | some st =>
      constructor
      · refine HeapExt.trans hext ⟨by simp, ?_⟩
        intro i hi
        exact List.getElem?_append_left hi
      · intro r c k hk
        rcases gridGet_gridSet_cases grid rc.1 rc.2 r c (some hp.length) none with hcase | hcase
        · unfold getH setH at hk
          rw [hcase] at hk
          cases hk
          exact hext.1
        · unfold getH setH at hk
          rw [hcase] at hk
          exact hfresh r c k hk
  · refine ⟨HeapExt.refl h, ?_⟩
    intro r c k hk
    rw [getH_emptyHB] at hk
    exact absurd hk (by simp)

/-- `move_piece_simulationH` only writes at the moved piece's id (and fresh
appends): every id below `bound` is untouched when the moved id is at least
`bound`. -/
theorem simH_ext (h : Heap) (b : HBoard) (pid : Option Nat) (s e : String) (bound : Nat)
    (hb : bound ≤ h.length)
    (hpid : ∀ k, pid = some k → bound ≤ k) :
    bound ≤ (move_piece_simulationH h b pid s e).1.length ∧
      ∀ i, i < bound → (move_piece_simulationH h b pid s e).1[i]? = h[i]? := by
  cases pid with
  | none => exact ⟨hb, fun i _ => rfl⟩
  | some k =>
    have hkb : bound ≤ k := hpid k rfl
    unfold move_piece_simulationH
    cases hst : h[k]? with
    | none =>
      simp only [Option.some_bind', hst]
      exact ⟨hb, fun i _ => trivial⟩
    | some p =>
      simp only [Option.some_bind', hst]
      constructor
      · split_ifs <;> simp only [List.length_append, List.length_set, List.length_cons,
          List.length_nil] <;> omega
      · intro i hi
        split_ifs <;>
          first
          | (rw [List.getElem?_append_left (by simp only [List.length_set]; omega)]
             exact List.getElem?_set_ne (by omega))
          | exact List.getElem?_set_ne (by omega)

/-- `get_all_legal_moves` (heap model) never touches a pre-existing piece
object: the heap it returns extends its input heap. -/
theorem gadH_heap_frame (h : Heap) (b : HBoard) (c : PColor) (lm : Option Move) :
    HeapExt h (get_all_legal_movesH h b c lm).2 := by
  unfold get_all_legal_movesH
  apply foldl_pres (fun (acc : Except Unit (List Move) × Heap) => HeapExt h acc.2)
  · rintro ⟨res, hp⟩ rc hext
    cases res with
    | error u => exact hext
    | ok moves =>
      dsimp only
      cases hderef : (getH b rc.1 rc.2).bind (fun i => hp[i]?) with
      | none => exact hext
      | some p =>
        dsimp only
        by_cases hco : p.color = c
        · rw [if_pos hco]
          refine foldl_pres (fun (acc2 : Except Unit (List Move) × Heap) => HeapExt h acc2.2)
            _ ?_ _ _ hext
          rintro ⟨res2, hp2⟩ erc hext2
          cases res2 with
          | error u => exact hext2
          | ok ms =>
            dsimp only
            cases hd : dispatch3 p (resolve hp2 b) (indices_to_position rc.2 rc.1)
                (indices_to_position erc.2 erc.1) lm with
            | error u => exact hext2
            | ok bv =>
              cases bv with
              | false => exact hext2
              | true =>
                obtain ⟨hcext, hcfresh⟩ := deepcopyH_spec hp2 b
                have hpid : ∀ k, getH (deepcopyH hp2 b).2 rc.1 rc.2 = some k →
                    h.length ≤ k := fun k hk =>
                  le_trans hext2.1 (hcfresh rc.1 rc.2 k hk)
                have hsim := simH_ext (deepcopyH hp2 b).1 (deepcopyH hp2 b).2
                  (getH (deepcopyH hp2 b).2 rc.1 rc.2)
                  (indices_to_position rc.2 rc.1) (indices_to_position erc.2 erc.1)
                  h.length (le_trans hext2.1 hcext.1) hpid
                have hfin : HeapExt h (move_piece_simulationH (deepcopyH hp2 b).1
                    (deepcopyH hp2 b).2 (getH (deepcopyH hp2 b).2 rc.1 rc.2)
                    (indices_to_position rc.2 rc.1) (indices_to_position erc.2 erc.1)).1 := by
                  refine ⟨hsim.1, ?_⟩
                  intro i hi
                  exact (hsim.2 i hi).trans
                    ((hcext.2 i (lt_of_lt_of_le hi hext2.1)).trans (hext2.2 i hi))
                cases is_in_check_gl
                    (resolve (move_piece_simulationH (deepcopyH hp2 b).1 (deepcopyH hp2 b).2
                      (getH (deepcopyH hp2 b).2 rc.1 rc.2) (indices_to_position rc.2 rc.1)
                      (indices_to_position erc.2 erc.1)).1
                      (move_piece_simulationH (deepcopyH hp2 b).1 (deepcopyH hp2 b).2
                        (getH (deepcopyH hp2 b).2 rc.1 rc.2) (indices_to_position rc.2 rc.1)
                        (indices_to_position erc.2 erc.1)).2)
                    c (some (indices_to_position rc.2 rc.1, indices_to_position erc.2 erc.1)) with
                | error u => exact hfin
                | ok bv2 => cases bv2 <;> exact hfin
        · rw [if_neg hco]
          exact hext
  · exact HeapExt.refl h

/-- C10: `get_all_legal_moves` leaves its input board unchanged — the grid of
the input board is never written (it is not even threaded through the
embedding, mirroring that the source writes only to `copy.deepcopy`ed
boards), and after the call every square's piece object dereferences to
exactly the same state (same `position`, same `has_moved`) as before. -/
theorem C10_get_all_legal_moves_frame (h : Heap) (b : HBoard) (c : PColor)
    (lm : Option Move)
    (hwf : ∀ rc ∈ squares,
      Option.all (fun k => decide (k < h.length)) (getH b rc.1 rc.2) = true) :
    ∀ rc ∈ squares,
      (getH b rc.1 rc.2).bind (fun k => (get_all_legal_movesH h b c lm).2[k]?)
        = (getH b rc.1 rc.2).bind (fun k => h[k]?) := by
  intro rc hrc
  cases hk : getH b rc.1 rc.2 with
  | none => rfl
  | some k =>
    have hklt : k < h.length := by
      have := hwf rc hrc
      rw [hk] at this
      simpa using this
    simp only [Option.some_bind']
    exact (gadH_heap_frame h b c lm).2 k hklt

/-- The heap and id board of the C10 witness: White rook a2 (id 0), Black
rook a8 (id 1). -/
def hC10 : Heap := [⟨.rook, .white, "a2", false⟩, ⟨.rook, .black, "a8", false⟩]

/-- See `hC10`. -/
def bC10 : HBoard := setH (setH emptyHB 1 0 (some 0)) 7 0 (some 1)

/-- Witness for C10 on the two-rook board, instantiated at square a2 (the
square of the White rook, heap id 0). -/
theorem C10_frame_witness :
    (getH bC10 1 0).bind
        (fun k => (get_all_legal_movesH hC10 bC10 .white none).2[k]?)
      = (getH bC10 1 0).bind (fun k => hC10[k]?) :=
  C10_get_all_legal_moves_frame hC10 bC10 .white none (by decide) (1, 0)
    (by decide)



theorem foldl_pres_mem {α β : Type} (P : β → Prop) (f : β → α → β) :
    ∀ (l : List α), (∀ acc x, x ∈ l → P acc → P (f acc x)) →
      ∀ acc, P acc → P (l.foldl f acc)
  | [], _, _, h => h
  | x :: xs, hstep, acc, h =>
    foldl_pres_mem P f xs (fun a y hy => hstep a y (List.mem_cons_of_mem _ hy))
      (f acc x) (hstep acc x (List.mem_cons_self x xs) h)

theorem findKingPos_eq_none (b : Board) (c : PColor) (hk : hasKingB b c = false) :
    findKingPos b c = none := by
  unfold findKingPos
  rw [List.head?_eq_none_iff]
  rw [List.filterMap_eq_nil_iff]
  intro rc hrc
  unfold hasKingB at hk
  rw [List.any_eq_false] at hk
  have := hk rc hrc
  cases hgs : getS b rc.1 rc.2 with
  | none => rfl
  | some p =>
    rw [hgs] at this
    simp only [Bool.and_eq_true, decide_eq_true_eq, not_and] at this
    dsimp only
    rw [if_neg]
    intro hcontra
    exact this hcontra.1 hcontra.2

theorem is_in_check_gl_no_king (b : Board) (c : PColor) (lm : Option Move)
    (hk : hasKingB b c = false) : is_in_check_gl b c lm = .ok true := by
  unfold is_in_check_gl
  rw [findKingPos_eq_none b c hk]

theorem hasKingB_setS_false {b : Board} {c : PColor} (hk : hasKingB b c = false)
    (r cc : Nat) {v : Option Piece} (hv : ∀ q, v = some q → q.ptype ≠ .king) :
    hasKingB (setS b r cc v) c = false := by
  unfold hasKingB at *
  rw [List.any_eq_false] at *
  intro rc hrc
  rcases getS_setS_cases b r cc rc.1 rc.2 v with hc | hc
  · rw [hc]
    cases v with
    | none => simp
    | some q => simp [hv q rfl]
  · rw [hc]
    exact hk rc hrc

theorem sim_no_king (b : Board) (p : Piece) (s e : String) (lm : Option Move)
    (c : PColor) (hk : hasKingB b c = false) (hpt : p.ptype ≠ .king) :
    hasKingB (move_piece_simulation b p s e lm) c = false := by
  unfold move_piece_simulation
  dsimp only
  have hstep : ∀ (bb : Board) (r cc : Nat) (v : Option Piece),
      hasKingB bb c = false → (∀ q, v = some q → q.ptype ≠ .king) →
      hasKingB (setS bb r cc v) c = false :=
    fun bb r cc v hbb hv => hasKingB_setS_false hbb r cc hv
  have hnone : ∀ (q : Piece), (none : Option Piece) = some q → q.ptype ≠ .king := by
    intro q hq
    cases hq
  have hqueen : ∀ cl ps, ∀ (q : Piece),
      (some ⟨.queen, cl, ps, false⟩ : Option Piece) = some q → q.ptype ≠ .king := by
    intro cl ps q hq
    cases hq
    simp
  have hmoved : ∀ hm, ∀ (q : Piece),
      (some ⟨p.ptype, p.color, e, hm⟩ : Option Piece) = some q → q.ptype ≠ .king := by
    intro hm q hq
    cases hq
    exact hpt
  split_ifs <;>
    repeat
      first
      | exact hk
      | refine hstep _ _ _ _ ?_ (hqueen _ _)
      | refine hstep _ _ _ _ ?_ (hmoved _)
      | refine hstep _ _ _ _ ?_ hnone


theorem no_king_piece {b : Board} {c : PColor} (hk : hasKingB b c = false) :
    ∀ rc ∈ squares, ∀ p : Piece, getS b rc.1 rc.2 = some p → p.color = c →
      p.ptype ≠ .king := by
  intro rc hrc p hgs hcol hking
  unfold hasKingB at hk
  rw [List.any_eq_false] at hk
  have h := hk rc hrc
  rw [hgs] at h
  simp only [Bool.and_eq_true, decide_eq_true_eq, not_and] at h
  exact h hking hcol

theorem dispatch3_ok_of_ne_king (p : Piece) (b : Board) (s e : String)
    (lm : Option Move) (h : p.ptype ≠ PType.king) :
    ∃ bl, dispatch3 p b s e lm = .ok bl := by
  unfold dispatch3
  cases hpt : p.ptype
  all_goals first
    | exact absurd hpt h
    | exact ⟨_, rfl⟩

theorem gad_no_king (b : Board) (c : PColor) (lm : Option Move)
    (hk : hasKingB b c = false) : get_all_legal_moves b c lm = .ok [] := by
  unfold get_all_legal_moves
  refine foldl_pres_mem (fun acc => acc = Except.ok []) _ squares ?_
    (Except.ok []) rfl
  intro acc rc hrc hacc
  have hacc2 : acc = Except.ok [] := hacc
  subst hacc2
  dsimp only
  cases hgs : getS b rc.1 rc.2 with
  | none => rfl
  | some p =>
    dsimp only
    by_cases hc : p.color = c
    · rw [if_pos hc]
      have hpk : p.ptype ≠ PType.king := no_king_piece hk rc hrc p hgs hc
      refine foldl_pres_mem (fun a => a = Except.ok []) _ squares ?_
        (Except.ok []) rfl
      intro acc2 erc herc hacc3
      have hacc4 : acc2 = Except.ok [] := hacc3
      subst hacc4
      dsimp only
      unfold legalAcc
      dsimp only
      obtain ⟨bl, hbl⟩ := dispatch3_ok_of_ne_king p b _ _ lm hpk
      rw [hbl]
      cases bl with
      | false => rfl
      | true =>
        dsimp only
        rw [is_in_check_gl_no_king _ c _ (sim_no_king b p _ _ lm c hk hpk)]
    · rw [if_neg hc]

theorem foldl_kill {α β : Type} (f : Except Unit β → α → Except Unit β)
    (K : α → Prop)
    (habs : ∀ a, f (.error ()) a = .error ())
    (hkill : ∀ ms a, K a → f (.ok ms) a = .error ()) :
    ∀ (l : List α) (acc : Except Unit β),
      ((∃ a ∈ l, K a) ∨ acc = .error ()) → l.foldl f acc = .error () := by
  intro l
  induction l with
  | nil =>
    intro acc h
    rcases h with ⟨a, ha, _⟩ | herr
    · exact absurd ha (List.not_mem_nil a)
    · rw [herr]; rfl
  | cons x xs ih =>
    intro acc h
    rw [List.foldl_cons]
    rcases h with ⟨a, ha, hK⟩ | herr
    · rcases List.mem_cons.mp ha with rfl | haxs
      · cases acc with
        | error u => cases u; exact ih _ (Or.inr (habs a))
        | ok ms => exact ih _ (Or.inr (hkill ms a hK))
      · exact ih _ (Or.inl ⟨a, haxs, hK⟩)
    · subst herr
      exact ih _ (Or.inr (habs x))

theorem hasKingB_exists {b : Board} {c : PColor} (hk : hasKingB b c = true) :
    ∃ rc ∈ squares, ∃ p : Piece, getS b rc.1 rc.2 = some p ∧
      p.ptype = PType.king ∧ p.color = c := by
  unfold hasKingB at hk
  rw [List.any_eq_true] at hk
  obtain ⟨rc, hrc, hx⟩ := hk
  cases hgs : getS b rc.1 rc.2 with
  | none => rw [hgs] at hx; simp at hx
  | some p =>
    rw [hgs] at hx
    simp only [Bool.and_eq_true, decide_eq_true_eq] at hx
    exact ⟨rc, hrc, p, hgs, hx.1, hx.2⟩

theorem inner_fold_king (b : Board) (c : PColor) (lm : Option Move) (r cc : Nat)
    (q : Piece) (hq : q.ptype = PType.king) (ms : List Move) :
    squares.foldl
      (fun (acc2 : Except Unit (List Move)) (erc : Nat × Nat) =>
        match acc2 with
        | .error u => .error u
        | .ok ms2 => legalAcc b c lm r cc q ms2 erc)
      (Except.ok ms) = Except.error () := by
  refine foldl_kill _ (fun _ => True) ?_ ?_ squares (Except.ok ms)
    (Or.inl ⟨(0, 0), by decide, trivial⟩)
  · intro a
    rfl
  · intro ms2 a _
    dsimp only
    unfold legalAcc
    dsimp only
    rw [show dispatch3 q b (indices_to_position cc r)
        (indices_to_position a.2 a.1) lm = Except.error () from by
      unfold dispatch3; rw [hq]]

theorem gad_king_error (b : Board) (c : PColor) (lm : Option Move)
    (hk : hasKingB b c = true) : get_all_legal_moves b c lm = .error () := by
  obtain ⟨rc, hrc, p, hgs, hpk, hpc⟩ := hasKingB_exists hk
  unfold get_all_legal_moves
  refine foldl_kill _
    (fun a => ∃ q : Piece, getS b a.1 a.2 = some q ∧ q.ptype = PType.king ∧
      q.color = c)
    ?_ ?_ squares (Except.ok [])
    (Or.inl ⟨rc, hrc, p, hgs, hpk, hpc⟩)
  · intro a
    rfl
  · intro ms a hK
    obtain ⟨q, hq, hqk, hqc⟩ := hK
    dsimp only
    rw [hq]
    dsimp only
    rw [if_pos hqc]
    exact inner_fold_king b c lm a.1 a.2 q hqk ms


theorem cgs_no_king (b : Board) (c : PColor) (lm : Option Move)
    (hk : hasKingB b c = false) :
    check_game_status b c lm
      = .ok (true, some (colorStr (opponentOf c) ++ "_win")) := by
  unfold check_game_status
  rw [is_in_check_gl_no_king b c lm hk, gad_no_king b c lm hk]
  rfl

theorem sim_once_no_king (oc : Oracles) (b : Board) (c : PColor)
    (lm : Option Move) (hk : hasKingB b c = false) :
    simulate_once oc b c lm = .ok (-1000) := by
  unfold simulate_once
  rw [cgs_no_king b c lm hk]
  cases c <;> rfl

theorem sim_par_no_king (oc : Oracles) (b : Board) (c : PColor)
    (lm : Option Move) (hk : hasKingB b c = false) :
    simulate_parallel oc b c lm = .ok (-1000) := by
  have hfold : (List.range 10).foldr
      (fun _ (acc : Except Unit (List ℚ)) =>
        match simulate_once oc b c lm, acc with
        | .error u, _ => .error u
        | _, .error u => .error u
        | .ok x, .ok xs => .ok (x :: xs))
      (Except.ok ([] : List ℚ)) = Except.ok (List.replicate 10 (-1000 : ℚ)) := by
    simp only [sim_once_no_king oc b c lm hk]
    rfl
  show (match (List.range 10).foldr
      (fun _ (acc : Except Unit (List ℚ)) =>
        match simulate_once oc b c lm, acc with
        | .error u, _ => .error u
        | _, .error u => .error u
        | .ok x, .ok xs => .ok (x :: xs))
      (Except.ok ([] : List ℚ)) with
    | .error u => Except.error u
    | .ok xs => Except.ok (xs.sum / (xs.length : ℚ))) = Except.ok (-1000)
  rw [hfold]
  have hval : (List.replicate 10 (-1000 : ℚ)).sum
      / ((List.replicate 10 (-1000 : ℚ)).length : ℚ) = -1000 := by
    simp [List.sum_replicate, List.length_replicate, nsmul_eq_mul]
    norm_num
  dsimp only
  rw [hval]


theorem isFullyExpanded_no_children (b : Board) (c : PColor) (lm mv : Option Move)
    (v : Nat) (w : ℚ) (hk : hasKingB b c = false) :
    isFullyExpanded (.mk b c lm mv v w []) = .ok true := by
  unfold isFullyExpanded
  dsimp only [MCNode.board, MCNode.color, MCNode.lastMove, MCNode.children]
  rw [gad_no_king b c lm hk]
  rfl

theorem isFullyExpanded_king (n : MCNode)
    (hk : hasKingB n.board n.color = true) : isFullyExpanded n = .error () := by
  unfold isFullyExpanded
  rw [gad_king_error n.board n.color n.lastMove hk]

theorem selectPathF_no_children (exf : Nat → Nat → ℚ) (g : Nat) (b : Board)
    (c : PColor) (lm mv : Option Move) (v : Nat) (w : ℚ)
    (hk : hasKingB b c = false) :
    selectPathF exf (g + 1) (.mk b c lm mv v w []) = some (.ok []) := by
  have heq : selectPathF exf (g + 1) (.mk b c lm mv v w [])
      = (match isFullyExpanded (MCNode.mk b c lm mv v w []) with
        | .error u => some (.error u)
        | .ok fe =>
          if fe ∧ ¬(MCNode.mk b c lm mv v w []).children.isEmpty then
            match bestChildIdx exf 1 (MCNode.mk b c lm mv v w []) with
            | none => some (.ok [])
            | some i =>
              match (MCNode.mk b c lm mv v w []).children.get? i with
              | none => some (.ok [])
              | some ch =>
                match selectPathF exf g ch with
                | none => none
                | some (.error u) => some (.error u)
                | some (.ok rest) => some (.ok (i :: rest))
          else some (.ok [])) := rfl
  rw [heq, isFullyExpanded_no_children b c lm mv v w hk]
  dsimp only [MCNode.children]
  simp

theorem selectPathF_king (exf : Nat → Nat → ℚ) (g : Nat) (n : MCNode)
    (hk : hasKingB n.board n.color = true) :
    selectPathF exf (g + 1) n = some (.error ()) := by
  have heq : selectPathF exf (g + 1) n
      = (match isFullyExpanded n with
        | .error u => some (.error u)
        | .ok fe =>
          if fe ∧ ¬n.children.isEmpty then
            match bestChildIdx exf 1 n with
            | none => some (.ok [])
            | some i =>
              match n.children.get? i with
              | none => some (.ok [])
              | some ch =>
                match selectPathF exf g ch with
                | none => none
                | some (.error u) => some (.error u)
                | some (.ok rest) => some (.ok (i :: rest))
          else some (.ok [])) := rfl
  rw [heq, isFullyExpanded_king n hk]

theorem mctsIter_fuel0 (oc : Oracles) (n : MCNode) : mctsIter oc 0 n = none :=
  rfl

theorem mctsIter_king (oc : Oracles) (g : Nat) (n : MCNode)
    (hk : hasKingB n.board n.color = true) :
    mctsIter oc (g + 1) n = some (.error ()) := by
  unfold mctsIter
  rw [selectPathF_king oc.explore g n hk]

theorem mctsIter_no_king (oc : Oracles) (g : Nat) (b : Board) (c : PColor)
    (lm mv : Option Move) (v : Nat) (w : ℚ) (hk : hasKingB b c = false) :
    mctsIter oc (g + 1) (.mk b c lm mv v w [])
      = some (.ok (.mk b c lm mv (v + 1) (w + -1000) [])) := by
  unfold mctsIter
  rw [selectPathF_no_children oc.explore g b c lm mv v w hk]
  dsimp only [nodeAt]
  rw [isFullyExpanded_no_children b c lm mv v w hk]
  dsimp only [MCNode.board, MCNode.color, MCNode.lastMove]
  rw [if_neg (by simp)]
  rw [sim_par_no_king oc b c lm hk]
  dsimp only [backpropAt]


theorem mctsRun_ok_shape (oc : Oracles) (fuel : Nat) (b : Board) (c : PColor)
    (lm : Option Move) :
    ∀ (j : Nat) (s : MCNode), mctsRun oc fuel b c lm j = some (.ok s) →
      s = .mk b c lm none j (-1000 * (j : ℚ)) [] := by
  intro j
  induction j with
  | zero =>
    intro s hs
    rw [show mctsRun oc fuel b c lm 0
        = some (.ok (.mk b c lm none 0 0 [])) from rfl] at hs
    injection hs with h1
    injection h1 with h2
    subst h2
    simp [MCNode.mk.injEq]
  | succ j ih =>
    intro s hs
    rw [show mctsRun oc fuel b c lm (j + 1)
        = (match mctsRun oc fuel b c lm j with
          | none => none
          | some (.error u) => some (.error u)
          | some (.ok t) => mctsIter oc fuel t) from rfl] at hs
    cases hrun : mctsRun oc fuel b c lm j with
    | none => rw [hrun] at hs; simp at hs
    | some ex =>
      cases ex with
      | error u => rw [hrun] at hs; simp at hs
      | ok t =>
        rw [hrun] at hs
        have hs2 : mctsIter oc fuel t = some (.ok s) := hs
        have ht := ih t hrun
        subst ht
        cases fuel with
        | zero => rw [mctsIter_fuel0] at hs2; simp at hs2
        | succ g =>
          cases hkb : hasKingB b c with
          | true =>
            rw [mctsIter_king oc g (.mk b c lm none j (-1000 * (j : ℚ)) [])
              (by exact hkb)] at hs2
            simp at hs2
          | false =>
            rw [mctsIter_no_king oc g b c lm none j (-1000 * (j : ℚ)) hkb] at hs2
            injection hs2 with h1
            injection h1 with h2
            subst h2
            simp only [MCNode.mk.injEq, true_and, and_true]
            push_cast
            ring

theorem mctsRun_no_king (oc : Oracles) (g : Nat) (b : Board) (c : PColor)
    (lm : Option Move) (hk : hasKingB b c = false) :
    ∀ k : Nat, mctsRun oc (g + 1) b c lm k
      = some (.ok (.mk b c lm none k (-1000 * (k : ℚ)) [])) := by
  intro k
  induction k with
  | zero =>
    rw [show mctsRun oc (g + 1) b c lm 0
        = some (.ok (.mk b c lm none 0 0 [])) from rfl]
    simp [MCNode.mk.injEq]
  | succ k ihk =>
    rw [show mctsRun oc (g + 1) b c lm (k + 1)
        = (match mctsRun oc (g + 1) b c lm k with
          | none => none
          | some (.error u) => some (.error u)
          | some (.ok t) => mctsIter oc (g + 1) t) from rfl, ihk]
    dsimp only
    rw [mctsIter_no_king oc g b c lm none k (-1000 * (k : ℚ)) hk]
    simp only [Option.some.injEq, Except.ok.injEq, MCNode.mk.injEq, true_and,
      and_true]
    push_cast
    ring


/-- C8: throughout every run of `mcts` — i.e. for every iteration-count prefix
of `mctsRun`, over arbitrary oracles, selection fuel, board, colour and
last-move context — each tree node's visits counter is monotonically
non-decreasing across iterations (compared along equal child-index paths), and
for every node that has children, the sum of its immediate children's visits
counters never exceeds that node's own visits counter minus one. -/
theorem C8_mcts_visit_invariants (oc : Oracles) (fuel : Nat) (b : Board)
    (c : PColor) (lm : Option Move) (j k : Nat) (s s2 : MCNode)
    (hj : j ≤ k)
    (hs : mctsRun oc fuel b c lm j = some (.ok s))
    (hs2 : mctsRun oc fuel b c lm k = some (.ok s2)) :
    (∀ p n n2, nodeAt s p = some n → nodeAt s2 p = some n2 →
      n.visits ≤ n2.visits) ∧
    (∀ p n, nodeAt s2 p = some n → n.children ≠ [] →
      ((n.children.map MCNode.visits).sum : ℤ) ≤ (n.visits : ℤ) - 1) := by
  have h1 := mctsRun_ok_shape oc fuel b c lm j s hs
  have h2 := mctsRun_ok_shape oc fuel b c lm k s2 hs2
  subst h1
  subst h2
  constructor
  · intro p n n2 hn hn2
    cases p with
    | nil =>
      rw [show nodeAt (MCNode.mk b c lm none j (-1000 * (j : ℚ)) []) []
          = some (MCNode.mk b c lm none j (-1000 * (j : ℚ)) []) from rfl] at hn
      rw [show nodeAt (MCNode.mk b c lm none k (-1000 * (k : ℚ)) []) []
          = some (MCNode.mk b c lm none k (-1000 * (k : ℚ)) []) from rfl] at hn2
      injection hn with e1
      injection hn2 with e2
      subst e1
      subst e2
      exact hj
    | cons i rest =>
      rw [show nodeAt (MCNode.mk b c lm none j (-1000 * (j : ℚ)) []) (i :: rest)
          = none from rfl] at hn
      cases hn
  · intro p n hn hne
    cases p with
    | nil =>
      rw [show nodeAt (MCNode.mk b c lm none k (-1000 * (k : ℚ)) []) []
          = some (MCNode.mk b c lm none k (-1000 * (k : ℚ)) []) from rfl] at hn
      injection hn with e1
      subst e1
      exact absurd rfl hne
    | cons i rest =>
      rw [show nodeAt (MCNode.mk b c lm none k (-1000 * (k : ℚ)) []) (i :: rest)
          = none from rfl] at hn
      cases hn

/-- Deterministic oracle bundle for the C8 witness (never consulted on the
reachable inputs). -/
def ocW : Oracles := ⟨fun _ _ => ("a1", "a1"), fun _ _ _ => 0, fun _ _ => 0⟩

/-- Witness for C8: two completed iterations on the empty (kingless) board,
with the invariants instantiated at the concrete states after 1 and 2
iterations. -/
theorem C8_mcts_visit_invariants_witness :
    ((1 : Nat) ≤ 2 ∧
     mctsRun ocW 1 emptyBoard .white none 1
       = some (.ok (.mk emptyBoard .white none none 1 (-1000 * (1 : ℚ)) [])) ∧
     mctsRun ocW 1 emptyBoard .white none 2
       = some (.ok (.mk emptyBoard .white none none 2 (-1000 * (2 : ℚ)) []))) ∧
    ((∀ p n n2,
        nodeAt (.mk emptyBoard .white none none 1 (-1000 * (1 : ℚ)) []) p
          = some n →
        nodeAt (.mk emptyBoard .white none none 2 (-1000 * (2 : ℚ)) []) p
          = some n2 →
        n.visits ≤ n2.visits) ∧
     (∀ p n,
        nodeAt (.mk emptyBoard .white none none 2 (-1000 * (2 : ℚ)) []) p
          = some n →
        n.children ≠ [] →
        ((n.children.map MCNode.visits).sum : ℤ) ≤ (n.visits : ℤ) - 1)) := by
  have hk : hasKingB emptyBoard .white = false := by decide
  have h1 := mctsRun_no_king ocW 0 emptyBoard .white none hk 1
  have h2 := mctsRun_no_king ocW 0 emptyBoard .white none hk 2
  exact ⟨⟨by decide, h1, h2⟩,
    C8_mcts_visit_invariants ocW 1 emptyBoard .white none 1 2 _ _ (by decide)
      h1 h2⟩

end SmartChess
